import Mathlib

/-!
# Verification of sublack's `blacker.py`

A shallow embedding of the parts of `src/sublack/blacker.py` that the
specification's testable properties talk about:

* the flat-file result cache (`Black.is_cached`, `Black.add_to_cache`),
* the daemon adapter (`Blackd.format_headers`, `Blackd.process_response`,
  `Blackd.__call__`),
* the subprocess command builder (`Black.get_black_command`),
* the result application logic (`Black.finalize`, `Black.create_diff_view`).

Python strings and bytes are both modelled as `List Char`.  Python's builtin
`hash` is modelled as an explicit function parameter `pyhash : List Char → Int`
(its concrete value is runtime dependent; all results are proved for every
such function).  Fallible Python code (code that can raise) is modelled with
`Option`, `none` standing for an uncaught exception.
-/

set_option maxRecDepth 10000

namespace Sublack

/-! ## Python string primitives used by `blacker.py` -/

/-- Python `str.strip()` whitespace test, restricted to the ASCII whitespace
characters (`int()` strips these before parsing). -/
def isPySpace (c : Char) : Bool :=
  c = ' ' || c = '\t' || c = '\n' || c = '\r' || c.toNat = 11 || c.toNat = 12

/-- Python `str.strip()`: drop leading and trailing whitespace. -/
def pyStrip (l : List Char) : List Char :=
  ((l.dropWhile isPySpace).reverse.dropWhile isPySpace).reverse

/-- Value of an ASCII decimal digit, `none` for any other character. -/
def digitVal (c : Char) : Option Nat :=
  if 48 ≤ c.toNat ∧ c.toNat ≤ 57 then some (c.toNat - 48) else none

/-- Parse the remaining digits of a Python integer literal (after the first
digit), allowing single underscores between digits as Python's `int` does.
`acc` is the value of the digits consumed so far. -/
def parseDigitsTail : Nat → List Char → Option Nat
  | acc, [] => some acc
  | acc, c :: r =>
    if c = '_' then
      match r with
      | [] => none
      | c2 :: r2 =>
        match digitVal c2 with
        | some d => parseDigitsTail (acc * 10 + d) r2
        | none => none
    else
      match digitVal c with
      | some d => parseDigitsTail (acc * 10 + d) r
      | none => none

/-- Parse a nonempty unsigned decimal numeral (Python `int`, after sign). -/
def parseUInt : List Char → Option Nat
  | [] => none
  | c :: r =>
    match digitVal c with
    | some d => parseDigitsTail d r
    | none => none

/-- Python `int(s)`: strip whitespace, optional sign, decimal digits.
`none` models the `ValueError` raised on malformed input. -/
def parseIntPy (l : List Char) : Option Int :=
  match pyStrip l with
  | [] => none
  | c :: rest =>
    if c = '-' then (parseUInt rest).map fun n => -(n : Int)
    else if c = '+' then (parseUInt rest).map fun n => (n : Int)
    else (parseUInt (c :: rest)).map fun n => (n : Int)

/-- Little-endian decimal digits of a natural number (`[]` for `0`). -/
def natDigitsLE (n : Nat) : List Char :=
  if h : n = 0 then [] else Char.ofNat (48 + n % 10) :: natDigitsLE (n / 10)
  termination_by n
  decreasing_by exact Nat.div_lt_self (Nat.pos_of_ne_zero h) (by norm_num)

/-- Decimal numeral of a natural number, as Python's `str` produces it. -/
def natToDigits (n : Nat) : List Char :=
  if n = 0 then ['0'] else (natDigitsLE n).reverse

/-- Python `str(i)` for an integer `i`. -/
def intToStr (n : Int) : List Char :=
  if n < 0 then '-' :: natToDigits n.natAbs else natToDigits n.natAbs

/-- Helper for `splitSep3`: prepend a character to the first part. -/
def consHead (c : Char) : List (List Char) → List (List Char)
  | [] => [[c]]
  | h :: t => (c :: h) :: t

/-- Python `s.split("|||")`: split on the three-character separator `|||`,
scanning left to right, non-overlapping. -/
def splitSep3 : List Char → List (List Char)
  | [] => [[]]
  | [c] => [[c]]
  | [c, d] => [[c, d]]
  | c1 :: c2 :: c3 :: r =>
    if c1 = '|' ∧ c2 = '|' ∧ c3 = '|' then [] :: splitSep3 r
    else consHead c1 (splitSep3 (c2 :: c3 :: r))

/-- The separator `"|||"` used by the cache file format. -/
def sep3 : List Char := ['|', '|', '|']

/-- Python `"\r\n" → "\n"` then `"\r" → "\n"` replacement performed by
`Black.finalize` on the decoded stderr text (blacker.py line 323). -/
def normalizeNewlines : List Char → List Char
  | [] => []
  | [c] => if c = '\r' then ['\n'] else [c]
  | c :: c2 :: rest =>
    if c = '\r' then
      if c2 = '\n' then '\n' :: normalizeNewlines rest
      else '\n' :: normalizeNewlines (c2 :: rest)
    else c :: normalizeNewlines (c2 :: rest)

/-- Python substring test `needle in hay`. -/
def containsSub (needle : List Char) : List Char → Bool
  | [] => needle.isPrefixOf []
  | c :: rest => needle.isPrefixOf (c :: rest) || containsSub needle rest

/-- The ASCII apostrophe used by Python `repr` of a string. -/
def quoteChar : Char := Char.ofNat 39

/-- Python `repr` of a string token (for tokens without quotes or escapes,
which is the shape of black command-line tokens). -/
def pyReprStr (s : List Char) : List Char := quoteChar :: s ++ [quoteChar]

/-- Comma-space separated concatenation, as in Python `repr` of a list. -/
def joinCommaSp : List (List Char) → List Char
  | [] => []
  | [x] => x
  | x :: y :: r => x ++ ',' :: ' ' :: joinCommaSp (y :: r)

/-- Python `str(command)` for a command given as a list of string tokens,
e.g. `str(["black", "-"]) = "['black', '-']"`. -/
def pyReprCmd (cmd : List (List Char)) : List Char :=
  '[' :: joinCommaSp (cmd.map pyReprStr) ++ [']']

/-! ## The result cache (`Black.is_cached`, `Black.add_to_cache`)

The cache file is modelled by its list of lines (Python reads it with
`read().splitlines()` and writes it back with `"\n".join(...)`, so the list
of lines is the state both operations act on). -/

/-- Parse one cache line: `content_f, cmd_f = line.split("|||")`
(blacker.py line 300).  Python's 2-tuple unpacking raises `ValueError`
unless the split yields exactly two parts. -/
def parseLine (line : List Char) : Option (List Char × List Char) :=
  match splitSep3 line with
  | [a, b] => some (a, b)
  | _ => none

/-- Fingerprint and command fields of one cache line:
`(int(content_f), cmd_f)` (blacker.py lines 300-301); `none` models the
`ValueError` raised by tuple unpacking or by `int`. -/
def lineVal (line : List Char) : Option (Int × List Char) :=
  match parseLine line with
  | none => none
  | some (a, r) =>
    match parseIntPy a with
    | none => none
    | some v => some (v, r)

/-- The scan of `Black.is_cached` (blacker.py lines 299-304) over the cache
lines: return `true` on the first line whose fingerprint equals `hC` and
whose command field equals `kr`, `false` if no line matches, `none` if a
line visited before any match is malformed. -/
def isCachedLines (hC : Int) (kr : List Char) : List (List Char) → Option Bool
  | [] => some false
  | line :: rest =>
    match lineVal line with
    | none => none
    | some (v, r) =>
      if v = hC ∧ r = kr then some true else isCachedLines hC kr rest

/-- `Black.is_cached(content, command)` (blacker.py lines 295-304):
`h_content = hash(content)`, then scan all cache lines. -/
def isCached (pyhash : List Char → Int) (cache : List (List Char))
    (content : List Char) (cmd : List (List Char)) : Option Bool :=
  isCachedLines (pyhash content) (pyReprCmd cmd) cache

/-- The line `str(hash(content)) + "|||" + str(command)` that
`Black.add_to_cache` prepends (blacker.py line 315). -/
def newEntry (pyhash : List Char → Int) (content : List Char)
    (cmd : List (List Char)) : List Char :=
  intToStr (pyhash content) ++ sep3 ++ pyReprCmd cmd

/-- `Black.add_to_cache(content, command)` (blacker.py lines 306-320):
no-op when already cached; otherwise pop the last line when more than 250
lines are present, and prepend the new entry.  `none` models an uncaught
exception from the `is_cached` call. -/
def addToCache (pyhash : List Char → Int) (cache : List (List Char))
    (content : List Char) (cmd : List (List Char)) : Option (List (List Char)) :=
  match isCached pyhash cache content cmd with
  | none => none
  | some true => some cache
  | some false =>
    let old := if 250 < cache.length then cache.dropLast else cache
    some (newEntry pyhash content cmd :: old)

/-- Iterated `add_to_cache` over a list of `(content, command)` pairs. -/
def recordAll (pyhash : List Char → Int) :
    List (List Char) → List (List Char × List (List Char)) → Option (List (List Char))
  | s, [] => some s
  | s, (c, k) :: ps =>
    match addToCache pyhash s c k with
    | none => none
    | some s' => recordAll pyhash s' ps

/-! ## The daemon adapter (`Blackd`) -/

/-- An HTTP response as seen by `Blackd.process_response`: only the status
code and the body are inspected. -/
structure HttpResponse where
  status_code : Nat
  content : List Char

/-- `b"1 file reformatted"` (blacker.py line 106). -/
def REFORMATTED_OUT : List Char := "1 file reformatted".data

/-- `b"1 file left unchanged"` (blacker.py line 109). -/
def UNCHANGED_OUT : List Char := "1 file left unchanged".data

/-- `b"unknown error"` (blacker.py line 112). -/
def UNKNOWN_ERROR_OUT : List Char := "unknown error".data

/-- `b"no valid response"` (blacker.py line 114). -/
def NO_VALID_RESPONSE_OUT : List Char := "no valid response".data

/-- `Blackd.process_response` (blacker.py lines 99-114): normalize an HTTP
response to the `(returncode, out, err)` triple of the `Popen` transport. -/
def process_response (r : HttpResponse) : Int × List Char × List Char :=
  if r.status_code = 200 then (0, r.content, REFORMATTED_OUT)
  else if r.status_code = 204 then (0, r.content, UNCHANGED_OUT)
  else if r.status_code = 400 ∨ r.status_code = 500 then (-1, r.content, UNKNOWN_ERROR_OUT)
  else (-1, r.content, NO_VALID_RESPONSE_OUT)

/-- `Blackd.process_errors` (blacker.py lines 116-121): wrap an error message
into a synthetic status-500 response. -/
def process_errors (msg : List Char) : HttpResponse :=
  { status_code := 500, content := msg }

/-- `Blackd.__call__` (blacker.py lines 123-146).  The readiness check
`utils.has_blackd_started()` is the external collaborator's boolean; the
network POST is modelled by its outcome `postResult` (`Except.error msg`
standing for a raised `ConnectionError`/exception, turned into a synthetic
response by `process_errors`).  The result pairs the returned triple
(`none` models the `(None, None, None)` early return) with the number of
network requests performed. -/
def blackdCall (hasStarted : Bool) (postResult : Except (List Char) HttpResponse) :
    Option (Int × List Char × List Char) × Nat :=
  if hasStarted = false then (none, 0)
  else
    let response :=
      match postResult with
      | .ok r => r
      | .error msg => process_errors msg
    (some (process_response response), 1)

/-! ## Header construction (`Blackd.format_headers`) -/

/-- A header dictionary: header name to value. -/
def Headers : Type := String → Option String

/-- `headers[k] = v` on a Python dict. -/
def hset (h : Headers) (k v : String) : Headers :=
  fun k' => if k' = k then some v else h k'

/-- `headers.update(table[item])` for one command token: apply every
key/value pair the table associates with the token (an empty list models a
token absent from `consts.HEADERS_TABLE`, which the loop skips). -/
def applyTable (table : String → List (String × String)) (h : Headers)
    (item : String) : Headers :=
  (table item).foldl (fun h kv => hset h kv.1 kv.2) h

/-- `f"{version[:-1]}.{version[-1]}"` (blacker.py line 86): insert a dot
before the last character.  `none` models the `IndexError` raised by
`version[-1]` on an empty string. -/
def variantOf (v : String) : Option String :=
  if v = "" then none else some (v.dropRight 1 ++ "." ++ v.takeRight 1)

/-- The `--target-version` collection loop of `format_headers` (blacker.py
lines 80-87): for every occurrence of `"--target-version"` take the next
token and add its dotted variant to the target set.  `none` models the
`IndexError` raised by `command[index + 1]` when the flag is the last token.
Python collects the variants in an (unordered) `set`; the model fixes one
order and deduplicates, which determines the same set of elements. -/
def targetsOf : List String → Option (List String)
  | [] => some []
  | [item] => if item = "--target-version" then none else some []
  | item :: v :: rest =>
    if item = "--target-version" then
      match variantOf v with
      | none => none
      | some var =>
        match targetsOf (v :: rest) with
        | none => none
        | some ts => some (if var ∈ ts then ts else var :: ts)
    else targetsOf (v :: rest)

/-- `filename and filename.endswith(".pyi")` (blacker.py lines 75-76, also
lines 211-212): `none` models a view with no file name. -/
def isPyi : Option String → Bool
  | none => false
  | some f => ".pyi".data.isSuffixOf f.data

/-- The `X-Line-Length` step of `format_headers` (blacker.py lines 72-73):
when `"-l"` occurs, the token after its first occurrence becomes the header
value (`none` models the `IndexError` when `"-l"` is the last token). -/
def lineLengthStep (command : List String) (h1 : Headers) : Option Headers :=
  if "-l" ∈ command then
    match command[command.indexOf "-l" + 1]? with
    | none => none
    | some v => some (hset h1 "X-Line-Length" v)
  else some h1

/-- The `X-Python-Variant` step of `format_headers` (blacker.py lines
75-90): a `.pyi` filename forces the value `"pyi"`; otherwise the dotted
target versions are comma-joined (when there are any). -/
def variantStep (command : List String) (filename : Option String)
    (h2 : Headers) : Option Headers :=
  if isPyi filename then some (hset h2 "X-Python-Variant" "pyi")
  else
    match targetsOf command with
    | none => none
    | some ts =>
      some (if ts = [] then h2 else hset h2 "X-Python-Variant" (String.intercalate "," ts))

/-- `Blackd.format_headers` (blacker.py lines 60-97), parametrized by the
translation table `consts.HEADERS_TABLE` (whose definition lives outside
`blacker.py`; every claim below holds for an arbitrary table).  `none`
models an uncaught `IndexError` from `command[...]` lookups. -/
def format_headers (table : String → List (String × String))
    (command : List String) (filename : Option String) : Option Headers :=
  match lineLengthStep command (command.foldl (applyTable table) (fun _ => none)) with
  | none => none
  | some h2 =>
    match variantStep command filename h2 with
    | none => none
    | some h3 => some (if "--diff" ∈ command then hset h3 "X-Diff" "true" else h3)

/-! ## Command construction (`Black.get_black_command`) -/

/-- The settings `get_black_command` reads.  A Python truthiness test guards
each option: `black_line_length` counts as set only when non-`None` and
non-zero, `black_target_version` only when nonempty. -/
structure Settings where
  black_line_length : Option Int
  black_fast : Bool
  black_skip_string_normalization : Bool
  black_py36 : Bool
  black_target_version : List String

/-- `Black.get_black_command` (blacker.py lines 183-225), parametrized by
`base`, the list returned by `utils.get_full_black_command` (defined outside
`blacker.py`).  `none` models the configuration `Exception` raised when the
base command is empty/falsy. -/
def get_black_command (base : List String) (extra : List String) (s : Settings)
    (filename : Option String) : Option (List String) :=
  if base = [] then none
  else
    let c0 := if extra = [] then base else base ++ extra
    let c1 :=
      match s.black_line_length with
      | some n => if n = 0 then c0 else c0 ++ ["-l", toString n]
      | none => c0
    let c2 := if s.black_fast then c1 ++ ["--fast"] else c1
    let c3 := if s.black_skip_string_normalization then c2 ++ ["--skip-string-normalization"] else c2
    let c4 := if isPyi filename then c3 ++ ["--pyi"] else c3
    let c5 := if s.black_py36 then c4 ++ ["--py36"] else c4
    some (s.black_target_version.foldl (fun c v => c ++ ["--target-version", v]) c5)

/-! ## Applying the result (`Black.finalize`, `Black.create_diff_view`) -/

/-- `consts.ALREADY_FORMATTED_MESSAGE` (value defined outside `blacker.py`;
the claims below do not depend on it). -/
def ALREADY_FORMATTED_MESSAGE : List Char := "already formatted".data

/-- `consts.REFORMATTED_MESSAGE` (value defined outside `blacker.py`; the
claims below do not depend on it). -/
def REFORMATTED_MESSAGE : List Char := "reformatted".data

/-- The substring `"unchanged"` tested against the diagnostic text
(blacker.py line 332). -/
def unchangedStr : List Char := "unchanged".data

/-- The token `"--diff"` looked up in the extra arguments
(blacker.py line 337). -/
def diffTok : List Char := "--diff".data

/-- The editor-visible state `Black.finalize` acts on: the buffer of the
original view, the status-bar value under `consts.STATUS_KEY`, the cache
file lines, and the contents of scratch views created so far.  (Selection
and folding state, which `finalize` restores around the buffer replacement,
are cosmetic and not part of any claim.) -/
structure ViewState where
  buffer : List Char
  status : Option (List Char)
  cache : List (List Char)
  newViews : List (List Char)

/-- `Black.finalize` (blacker.py lines 322-360).  Branches follow the
source: nonzero returncode sets the diagnostic as status; an "unchanged"
diagnostic sets the already-formatted status and records the cache entry;
`"--diff" in extra` inserts the formatter output into a fresh scratch view
(`Black.create_diff_view`, blacker.py lines 271-278); otherwise the buffer
is replaced by the decoded output, the reformatted status is set, and the
new content is recorded in the cache (the deferred `set_timeout_async`
write is modelled synchronously; decoding is the identity on the `List
Char` model of both bytes and text).  `none` models an uncaught exception
from `add_to_cache`. -/
def finalize (pyhash : List Char → Int) (st : ViewState)
    (extra : List (List Char)) (returncode : Int) (out err content : List Char)
    (cmd : List (List Char)) : Option ViewState :=
  let error_message := normalizeNewlines err
  if returncode ≠ 0 then
    some { st with status := some error_message }
  else if containsSub unchangedStr error_message then
    match addToCache pyhash st.cache content cmd with
    | none => none
    | some c' => some { st with status := some ALREADY_FORMATTED_MESSAGE, cache := c' }
  else if diffTok ∈ extra then
    some { st with newViews := st.newViews ++ [out] }
  else
    match addToCache pyhash st.cache out cmd with
    | none => none
    | some c' =>
      some { st with buffer := out, status := some REFORMATTED_MESSAGE, cache := c' }

/-! ## Concrete instances used in counterexamples and witnesses -/

/-- A concrete stand-in for Python's (runtime dependent) `hash`. -/
def pyhash0 : List Char → Int := fun _ => 0

/-- A concrete content. -/
def c0 : List Char := ['a']

/-- A second concrete content. -/
def c1 : List Char := ['b']

/-- A concrete command. -/
def k0 : List (List Char) := [['x']]

/-- A second concrete command (different string representation). -/
def k1 : List (List Char) := [['y']]

/-- A well-formed cache line whose fingerprint field is `1` and whose
command field is `x`; it matches nothing recorded below. -/
def lineEx : List Char := ['1', '|', '|', '|', 'x']

/-- A 250-line cache in which no line matches `(c0, k0)` under `pyhash0`. -/
def cacheEx : List (List Char) := List.replicate 250 lineEx

/-- A 251-line cache in which no line matches `(c0, k0)` under `pyhash0`. -/
def cacheEx251 : List (List Char) := List.replicate 251 lineEx

/-- A cache line without the `|||` separator, which `is_cached` cannot
unpack. -/
def badLine : List Char := ['z', 'z']

/-- A header table sending every token to no headers. -/
def tbl0 : String → List (String × String) := fun _ => []

/-! ## Lemmas: decimal printing and parsing round-trip -/

theorem digit_char_facts :
    ∀ r, r < 10 →
      digitVal (Char.ofNat (48 + r)) = some r ∧ Char.ofNat (48 + r) ≠ '_' ∧
      Char.ofNat (48 + r) ≠ '-' ∧ Char.ofNat (48 + r) ≠ '+' ∧
      Char.ofNat (48 + r) ≠ '|' ∧ isPySpace (Char.ofNat (48 + r)) = false := by
  decide

theorem natDigitsLE_mem :
    ∀ n : Nat, ∀ c ∈ natDigitsLE n, ∃ r, r < 10 ∧ c = Char.ofNat (48 + r) := by
  intro n
  induction n using Nat.strong_induction_on with
  | _ n ih =>
    intro c hc
    rw [natDigitsLE] at hc
    by_cases h0 : n = 0
    · rw [dif_pos h0] at hc
      exact absurd hc (List.not_mem_nil c)
    · rw [dif_neg h0] at hc
      rcases List.mem_cons.mp hc with h | h
      · exact ⟨n % 10, Nat.mod_lt _ (by norm_num), h⟩
      · exact ih (n / 10) (Nat.div_lt_self (Nat.pos_of_ne_zero h0) (by norm_num)) c h

theorem natDigitsLE_ne_nil {n : Nat} (h : n ≠ 0) : natDigitsLE n ≠ [] := by
  rw [natDigitsLE, dif_neg h]
  simp

theorem parseDigitsTail_cons_digit {c : Char} {d : Nat} (hne : c ≠ '_')
    (hd : digitVal c = some d) (acc : Nat) (r : List Char) :
    parseDigitsTail acc (c :: r) = parseDigitsTail (acc * 10 + d) r := by
  rw [parseDigitsTail.eq_def]
  simp [hne, hd]

theorem parseUInt_cons {c : Char} {d : Nat} (hd : digitVal c = some d) (r : List Char) :
    parseUInt (c :: r) = parseDigitsTail d r := by
  rw [parseUInt.eq_def]
  simp [hd]

theorem parseDigitsTail_digitsLE :
    ∀ n acc ys, parseDigitsTail acc ((natDigitsLE n).reverse ++ ys) =
      parseDigitsTail (acc * 10 ^ (natDigitsLE n).length + n) ys := by
  intro n
  induction n using Nat.strong_induction_on with
  | _ n ih =>
    intro acc ys
    by_cases h0 : n = 0
    · subst h0
      rw [natDigitsLE]
      simp
    · rw [natDigitsLE, dif_neg h0, List.reverse_cons, List.append_assoc,
        ih (n / 10) (Nat.div_lt_self (Nat.pos_of_ne_zero h0) (by norm_num)) acc
          ([Char.ofNat (48 + n % 10)] ++ ys)]
      have hd := digit_char_facts (n % 10) (Nat.mod_lt _ (by norm_num))
      show parseDigitsTail _ (Char.ofNat (48 + n % 10) :: ys) = _
      rw [parseDigitsTail_cons_digit hd.2.1 hd.1]
      have harith :
          (acc * 10 ^ (natDigitsLE (n / 10)).length + n / 10) * 10 + n % 10 =
            acc * 10 ^ (Char.ofNat (48 + n % 10) :: natDigitsLE (n / 10)).length + n := by
        rw [List.length_cons, pow_succ]
        have := Nat.div_add_mod n 10
        ring_nf
        omega
      rw [harith]

theorem natToDigits_mem :
    ∀ n : Nat, ∀ c ∈ natToDigits n, ∃ r, r < 10 ∧ c = Char.ofNat (48 + r) := by
  intro n c hc
  by_cases h0 : n = 0
  · subst h0
    unfold natToDigits at hc
    rw [if_pos rfl] at hc
    rcases List.mem_singleton.mp hc with rfl
    exact ⟨0, by norm_num, by decide⟩
  · unfold natToDigits at hc
    rw [if_neg h0, List.mem_reverse] at hc
    exact natDigitsLE_mem n c hc

theorem parseUInt_natToDigits (n : Nat) : parseUInt (natToDigits n) = some n := by
  by_cases h0 : n = 0
  · subst h0; decide
  · unfold natToDigits
    rw [if_neg h0]
    rcases hcons : (natDigitsLE n).reverse with _ | ⟨c, t⟩
    · exact absurd (List.reverse_eq_nil_iff.mp hcons) (natDigitsLE_ne_nil h0)
    · have hc : c ∈ natDigitsLE n := by
        rw [← List.mem_reverse, hcons]
        exact List.mem_cons_self c t
      obtain ⟨r, hr, rfl⟩ := natDigitsLE_mem n c hc
      have hd := digit_char_facts r hr
      have key := parseDigitsTail_digitsLE n 0 []
      rw [List.append_nil, hcons] at key
      rw [parseDigitsTail_cons_digit hd.2.1 hd.1] at key
      rw [parseUInt_cons hd.1]
      simpa using key

theorem dropWhile_eq_self_of_all {p : Char → Bool} {l : List Char}
    (h : ∀ c ∈ l, p c = false) : l.dropWhile p = l := by
  cases l with
  | nil => rfl
  | cons c t =>
    rw [List.dropWhile_cons, if_neg]
    rw [h c (List.mem_cons_self c t)]
    simp

theorem pyStrip_eq_self {l : List Char} (h : ∀ c ∈ l, isPySpace c = false) :
    pyStrip l = l := by
  unfold pyStrip
  rw [dropWhile_eq_self_of_all h]
  rw [dropWhile_eq_self_of_all (fun c hc => h c (List.mem_reverse.mp hc))]
  exact List.reverse_reverse l

theorem natToDigits_no_space {n : Nat} : ∀ c ∈ natToDigits n, isPySpace c = false := by
  intro c hc
  obtain ⟨r, hr, rfl⟩ := natToDigits_mem n c hc
  exact (digit_char_facts r hr).2.2.2.2.2

theorem natToDigits_ne_nil (m : Nat) : natToDigits m ≠ [] := by
  by_cases h0 : m = 0
  · rw [natToDigits, if_pos h0]
    simp
  · rw [natToDigits, if_neg h0]
    intro hrev
    exact natDigitsLE_ne_nil h0 (List.reverse_eq_nil_iff.mp hrev)

theorem parseIntPy_intToStr (n : Int) : parseIntPy (intToStr n) = some n := by
  by_cases hneg : n < 0
  · unfold intToStr
    rw [if_pos hneg, parseIntPy]
    have hstrip : pyStrip ('-' :: natToDigits n.natAbs) = '-' :: natToDigits n.natAbs := by
      apply pyStrip_eq_self
      intro c hc
      rcases List.mem_cons.mp hc with rfl | hc
      · decide
      · exact natToDigits_no_space c hc
    rw [hstrip]
    show (parseUInt (natToDigits n.natAbs)).map (fun m => -(m : Int)) = some n
    rw [parseUInt_natToDigits]
    show some (-(n.natAbs : Int)) = some n
    congr 1
    omega
  · unfold intToStr
    rw [if_neg hneg, parseIntPy]
    rw [pyStrip_eq_self (fun c hc => natToDigits_no_space c hc)]
    rcases hcons : natToDigits n.natAbs with _ | ⟨c, t⟩
    · exact absurd hcons (natToDigits_ne_nil n.natAbs)
    · have hc : c ∈ natToDigits n.natAbs := by
        rw [hcons]
        exact List.mem_cons_self c t
      obtain ⟨r, hr, rfl⟩ := natToDigits_mem n.natAbs c hc
      have hd := digit_char_facts r hr
      show (if Char.ofNat (48 + r) = '-' then (parseUInt t).map (fun m => -(m : Int))
        else if Char.ofNat (48 + r) = '+' then (parseUInt t).map (fun m => (m : Int))
        else (parseUInt (Char.ofNat (48 + r) :: t)).map (fun m => (m : Int))) = some n
      rw [if_neg hd.2.2.1, if_neg hd.2.2.2.1, ← hcons, parseUInt_natToDigits]
      show some ((n.natAbs : Int)) = some n
      congr 1
      omega

/-! ## Lemmas: splitting and parsing cache lines -/

theorem splitSep3_no_pipe : ∀ l : List Char, '|' ∉ l → splitSep3 l = [l] := by
  intro l
  induction l with
  | nil => intro _; rfl
  | cons c t ih =>
    intro hmem
    have hc : c ≠ '|' := fun h => hmem (h ▸ List.mem_cons_self c t)
    have ht : '|' ∉ t := fun h => hmem (List.mem_cons_of_mem c h)
    cases t with
    | nil => rfl
    | cons c2 t2 =>
      cases t2 with
      | nil => rfl
      | cons c3 t3 =>
        rw [splitSep3, if_neg (by rintro ⟨h1, _, _⟩; exact hc h1), ih ht]
        rfl

theorem splitSep3_pair : ∀ a : List Char, ∀ b : List Char, '|' ∉ a → '|' ∉ b →
    splitSep3 (a ++ sep3 ++ b) = [a, b] := by
  intro a
  induction a with
  | nil =>
    intro b _ hb
    show splitSep3 ('|' :: '|' :: '|' :: b) = [[], b]
    rw [splitSep3, if_pos ⟨rfl, rfl, rfl⟩, splitSep3_no_pipe b hb]
  | cons c a' ih =>
    intro b hmem hb
    have hc : c ≠ '|' := fun h => hmem (h ▸ List.mem_cons_self c a')
    have ha' : '|' ∉ a' := fun h => hmem (List.mem_cons_of_mem c h)
    have hne : ¬(c = '|' ∧ '|' = '|' ∧ '|' = '|') := by
      rintro ⟨h1, _, _⟩; exact hc h1
    cases a' with
    | nil =>
      show splitSep3 (c :: '|' :: '|' :: '|' :: b) = [[c], b]
      rw [splitSep3, if_neg hne,
        show ('|' :: '|' :: '|' :: b) = ([] ++ sep3 ++ b) from rfl, ih b (by simp) hb]
      rfl
    | cons c2 a2 =>
      cases a2 with
      | nil =>
        show splitSep3 (c :: c2 :: '|' :: '|' :: '|' :: b) = [[c, c2], b]
        have hne2 : ¬(c = '|' ∧ c2 = '|' ∧ '|' = '|') := by
          rintro ⟨h1, _, _⟩; exact hc h1
        rw [splitSep3, if_neg hne2,
          show (c2 :: '|' :: '|' :: '|' :: b) = ([c2] ++ sep3 ++ b) from rfl, ih b ha' hb]
        rfl
      | cons c3 a3 =>
        show splitSep3 (c :: c2 :: c3 :: (a3 ++ sep3 ++ b)) = [c :: c2 :: c3 :: a3, b]
        have hne3 : ¬(c = '|' ∧ c2 = '|' ∧ c3 = '|') := by
          rintro ⟨h1, _, _⟩; exact hc h1
        rw [splitSep3, if_neg hne3,
          show (c2 :: c3 :: (a3 ++ sep3 ++ b)) = ((c2 :: c3 :: a3) ++ sep3 ++ b) from rfl,
          ih b ha' hb]
        rfl

theorem intToStr_no_pipe (n : Int) : '|' ∉ intToStr n := by
  intro h
  have hdig : ∀ c ∈ natToDigits n.natAbs, c ≠ '|' := by
    intro c hc
    obtain ⟨r, hr, rfl⟩ := natToDigits_mem n.natAbs c hc
    exact (digit_char_facts r hr).2.2.2.2.1
  unfold intToStr at h
  by_cases hneg : n < 0
  · rw [if_pos hneg] at h
    rcases List.mem_cons.mp h with h | h
    · exact absurd h.symm (by decide)
    · exact hdig '|' h rfl
  · rw [if_neg hneg] at h
    exact hdig '|' h rfl

theorem parseLine_of_split {line a b : List Char} (h : splitSep3 line = [a, b]) :
    parseLine line = some (a, b) := by
  unfold parseLine
  rw [h]

theorem lineVal_entry (n : Int) (r : List Char) (hr : '|' ∉ r) :
    lineVal (intToStr n ++ sep3 ++ r) = some (n, r) := by
  unfold lineVal
  rw [parseLine_of_split (splitSep3_pair _ _ (intToStr_no_pipe n) hr)]
  simp [parseIntPy_intToStr]

theorem lineVal_newEntry (pyhash : List Char → Int) (content : List Char)
    (cmd : List (List Char)) (hr : '|' ∉ pyReprCmd cmd) :
    lineVal (newEntry pyhash content cmd) = some (pyhash content, pyReprCmd cmd) :=
  lineVal_entry (pyhash content) (pyReprCmd cmd) hr

/-! ## Lemmas: the cache scan -/

theorem icl_false_iff (hC : Int) (kr : List Char) :
    ∀ s, isCachedLines hC kr s = some false ↔
      ∀ x ∈ s, ∃ v r, lineVal x = some (v, r) ∧ ¬(v = hC ∧ r = kr) := by
  intro s
  induction s with
  | nil => simp [isCachedLines]
  | cons line rest ih =>
    rw [isCachedLines]
    cases hlv : lineVal line with
    | none => simp [hlv]
    | some vr =>
      obtain ⟨v, r⟩ := vr
      by_cases hm : v = hC ∧ r = kr
      · simp [hlv, hm]
      · simp only [List.mem_cons]
        constructor
        · intro h
          rw [if_neg hm] at h
          intro x hx
          rcases hx with rfl | hx
          · exact ⟨v, r, hlv, hm⟩
          · exact (ih.mp h) x hx
        · intro h
          rw [if_neg hm]
          exact ih.mpr fun x hx => h x (Or.inr hx)

theorem icl_isSome_of_wf (hC : Int) (kr : List Char) :
    ∀ s, (∀ x ∈ s, (lineVal x).isSome) → (isCachedLines hC kr s).isSome := by
  intro s
  induction s with
  | nil => intro _; simp [isCachedLines]
  | cons line rest ih =>
    intro hwf
    rw [isCachedLines]
    cases hlv : lineVal line with
    | none =>
      have := hwf line (List.mem_cons_self line rest)
      rw [hlv] at this
      simp at this
    | some vr =>
      obtain ⟨v, r⟩ := vr
      by_cases hm : v = hC ∧ r = kr
      · simp [hm]
      · simp only [if_neg hm]
        exact ih fun x hx => hwf x (List.mem_cons_of_mem line hx)

theorem icl_true_of_mem (hC : Int) (kr : List Char) :
    ∀ s, (∀ x ∈ s, (lineVal x).isSome) →
      (∃ x ∈ s, lineVal x = some (hC, kr)) → isCachedLines hC kr s = some true := by
  intro s
  induction s with
  | nil =>
    rintro _ ⟨x, hx, _⟩
    exact absurd hx (List.not_mem_nil x)
  | cons line rest ih =>
    rintro hwf ⟨x, hx, hxv⟩
    rw [isCachedLines]
    rcases List.mem_cons.mp hx with rfl | hx
    · rw [hxv]
      simp
    · cases hlv : lineVal line with
      | none =>
        have := hwf line (List.mem_cons_self line rest)
        rw [hlv] at this
        simp at this
      | some vr =>
        obtain ⟨v, r⟩ := vr
        by_cases hm : v = hC ∧ r = kr
        · simp [hm]
        · simp only [if_neg hm]
          exact ih (fun y hy => hwf y (List.mem_cons_of_mem line hy)) ⟨x, hx, hxv⟩

theorem icl_mem_of_true (hC : Int) (kr : List Char) :
    ∀ s, isCachedLines hC kr s = some true → ∃ x ∈ s, lineVal x = some (hC, kr) := by
  intro s
  induction s with
  | nil =>
    intro h
    simp [isCachedLines] at h
  | cons line rest ih =>
    intro h
    rw [isCachedLines] at h
    cases hlv : lineVal line with
    | none =>
      rw [hlv] at h
      simp at h
    | some vr =>
      obtain ⟨v, r⟩ := vr
      rw [hlv] at h
      have h' : (if v = hC ∧ r = kr then some true else isCachedLines hC kr rest) =
          some true := h
      by_cases hm : v = hC ∧ r = kr
      · exact ⟨line, List.mem_cons_self line rest, by rw [hlv, hm.1, hm.2]⟩
      · rw [if_neg hm] at h'
        obtain ⟨x, hx, hxv⟩ := ih h'
        exact ⟨x, List.mem_cons_of_mem line hx, hxv⟩

theorem icl_ne_false_of_bad (hC : Int) (kr : List Char) (s : List (List Char))
    (hbad : ∃ x ∈ s, lineVal x = none) : isCachedLines hC kr s ≠ some false := by
  intro hfalse
  obtain ⟨x, hx, hxv⟩ := hbad
  obtain ⟨v, r, hvr, _⟩ := (icl_false_iff hC kr s).mp hfalse x hx
  rw [hxv] at hvr
  exact Option.noConfusion hvr

/-! ## Lemmas: recording entries -/

theorem addToCache_cases (pyhash : List Char → Int) (cache : List (List Char))
    (content : List Char) (cmd : List (List Char)) (s' : List (List Char))
    (h : addToCache pyhash cache content cmd = some s') :
    (isCached pyhash cache content cmd = some true ∧ s' = cache) ∨
    (isCached pyhash cache content cmd = some false ∧
      s' = newEntry pyhash content cmd ::
        (if 250 < cache.length then cache.dropLast else cache)) := by
  unfold addToCache at h
  cases hic : isCached pyhash cache content cmd with
  | none =>
    rw [hic] at h
    exact Option.noConfusion h
  | some b =>
    rw [hic] at h
    cases b with
    | true => exact Or.inl ⟨rfl, (Option.some.inj h).symm⟩
    | false => exact Or.inr ⟨rfl, (Option.some.inj h).symm⟩

theorem addToCache_total (pyhash : List Char → Int) (cache : List (List Char))
    (content : List Char) (cmd : List (List Char))
    (hwf : ∀ x ∈ cache, (lineVal x).isSome) :
    ∃ s', addToCache pyhash cache content cmd = some s' := by
  unfold addToCache
  cases hic : isCached pyhash cache content cmd with
  | none =>
    have := icl_isSome_of_wf (pyhash content) (pyReprCmd cmd) cache hwf
    rw [show isCachedLines (pyhash content) (pyReprCmd cmd) cache =
      isCached pyhash cache content cmd from rfl, hic] at this
    simp at this
  | some b => cases b <;> exact ⟨_, rfl⟩

theorem addToCache_wf (pyhash : List Char → Int) (cache : List (List Char))
    (content : List Char) (cmd : List (List Char)) (s' : List (List Char))
    (hwf : ∀ x ∈ cache, (lineVal x).isSome) (hp : '|' ∉ pyReprCmd cmd)
    (h : addToCache pyhash cache content cmd = some s') :
    ∀ x ∈ s', (lineVal x).isSome := by
  rcases addToCache_cases pyhash cache content cmd s' h with ⟨_, rfl⟩ | ⟨_, rfl⟩
  · exact hwf
  · intro x hx
    rcases List.mem_cons.mp hx with rfl | hx
    · rw [lineVal_newEntry pyhash content cmd hp]
      rfl
    · by_cases hlen : 250 < cache.length
      · rw [if_pos hlen] at hx
        exact hwf x ((List.dropLast_sublist _).subset hx)
      · rw [if_neg hlen] at hx
        exact hwf x hx

theorem addToCache_length (pyhash : List Char → Int) (cache : List (List Char))
    (content : List Char) (cmd : List (List Char)) (s' : List (List Char))
    (h : addToCache pyhash cache content cmd = some s') :
    s'.length ≤ cache.length + 1 := by
  rcases addToCache_cases pyhash cache content cmd s' h with ⟨_, rfl⟩ | ⟨_, rfl⟩
  · exact Nat.le_succ _
  · by_cases hlen : 250 < cache.length
    · rw [if_pos hlen]
      simp only [List.length_cons, List.length_dropLast]
      omega
    · rw [if_neg hlen]
      simp

theorem addToCache_mem_of_small (pyhash : List Char → Int) (cache : List (List Char))
    (content : List Char) (cmd : List (List Char)) (s' : List (List Char))
    (hlen : cache.length ≤ 250)
    (h : addToCache pyhash cache content cmd = some s') :
    ∀ x ∈ cache, x ∈ s' := by
  rcases addToCache_cases pyhash cache content cmd s' h with ⟨_, rfl⟩ | ⟨_, rfl⟩
  · exact fun x hx => hx
  · rw [if_neg (by omega)]
    exact fun x hx => List.mem_cons_of_mem _ hx

theorem recordAll_props (pyhash : List Char → Int) :
    ∀ ps : List (List Char × List (List Char)), ∀ s : List (List Char),
      (∀ x ∈ s, (lineVal x).isSome) →
      (∀ p ∈ ps, '|' ∉ pyReprCmd p.2) →
      ∃ s', recordAll pyhash s ps = some s' ∧ (∀ x ∈ s', (lineVal x).isSome) ∧
        s'.length ≤ s.length + ps.length ∧
        (s.length + ps.length ≤ 251 → ∀ x ∈ s, x ∈ s') := by
  intro ps
  induction ps with
  | nil =>
    intro s hwf _
    exact ⟨s, rfl, hwf, by simp, fun _ x hx => hx⟩
  | cons p ps ih =>
    intro s hwf hps
    obtain ⟨c, k⟩ := p
    obtain ⟨s1, hs1⟩ :=
      addToCache_total pyhash s c k hwf
    have hk : '|' ∉ pyReprCmd k := hps (c, k) (List.mem_cons_self _ _)
    have hwf1 := addToCache_wf pyhash s c k s1 hwf hk hs1
    have hlen1 := addToCache_length pyhash s c k s1 hs1
    obtain ⟨s', hra, hwf', hlen', hmem'⟩ :=
      ih s1 hwf1 (fun q hq => hps q (List.mem_cons_of_mem _ hq))
    refine ⟨s', ?_, hwf', ?_, ?_⟩
    · rw [recordAll, hs1]
      exact hra
    · calc s'.length ≤ s1.length + ps.length := hlen'
        _ ≤ (s.length + 1) + ps.length := by omega
        _ = s.length + (ps.length + 1) := by omega
        _ = s.length + (List.length (⟨c, k⟩ :: ps)) := by simp
    · intro hcap x hx
      have hsmall : s.length ≤ 250 := by
        simp only [List.length_cons] at hcap
        omega
      have hx1 := addToCache_mem_of_small pyhash s c k s1 hsmall hs1 x hx
      apply hmem' _ x hx1
      simp only [List.length_cons] at hcap
      omega

theorem recordAll_nonmatch (pyhash : List Char → Int) (hC : Int) (kr : List Char) :
    ∀ ps : List (List Char × List (List Char)), ∀ s s' : List (List Char),
      (∀ x ∈ s, ∃ v r, lineVal x = some (v, r) ∧ ¬(v = hC ∧ r = kr)) →
      (∀ p ∈ ps, '|' ∉ pyReprCmd p.2 ∧ (pyhash p.1 ≠ hC ∨ pyReprCmd p.2 ≠ kr)) →
      recordAll pyhash s ps = some s' →
      ∀ x ∈ s', ∃ v r, lineVal x = some (v, r) ∧ ¬(v = hC ∧ r = kr) := by
  intro ps
  induction ps with
  | nil =>
    intro s s' hs _ h
    have : s = s' := Option.some.inj h
    exact this ▸ hs
  | cons p ps ih =>
    intro s s' hs hps h
    obtain ⟨c, k⟩ := p
    rw [recordAll] at h
    cases hadd : addToCache pyhash s c k with
    | none =>
      rw [hadd] at h
      exact absurd h (by simp)
    | some s1 =>
      rw [hadd] at h
      have hp := hps (c, k) (List.mem_cons_self _ _)
      have hs1 : ∀ x ∈ s1, ∃ v r, lineVal x = some (v, r) ∧ ¬(v = hC ∧ r = kr) := by
        rcases addToCache_cases pyhash s c k s1 hadd with ⟨_, rfl⟩ | ⟨_, rfl⟩
        · exact hs
        · intro x hx
          rcases List.mem_cons.mp hx with rfl | hx
          · refine ⟨pyhash c, pyReprCmd k, lineVal_newEntry pyhash c k hp.1, ?_⟩
            rintro ⟨h1, h2⟩
            rcases hp.2 with hne | hne
            · exact hne h1
            · exact hne h2
          · by_cases hlen : 250 < s.length
            · rw [if_pos hlen] at hx
              exact hs x ((List.dropLast_sublist _).subset hx)
            · rw [if_neg hlen] at hx
              exact hs x hx
      exact ih s1 s' hs1 (fun q hq => hps q (List.mem_cons_of_mem _ hq)) h

/-! ## Claims about the result cache -/

theorem isCached_replicate_false (n : Nat) :
    isCachedLines 0 (pyReprCmd k0) (List.replicate n lineEx) = some false := by
  apply (icl_false_iff 0 (pyReprCmd k0) _).mpr
  intro x hx
  rw [List.eq_of_mem_replicate hx]
  exact ⟨1, ['x'], by decide, by decide⟩

theorem replicate_lineEx_wf (n : Nat) :
    ∀ x ∈ List.replicate n lineEx, (lineVal x).isSome := by
  intro x hx
  rw [List.eq_of_mem_replicate hx]
  decide

/-- C1, counterexample: the claim says a cache holding exactly 250 entries
evicts its oldest entry on insertion and stays at 250 entries.  On the code
(`if len(old) > 250: old.pop()`) a 250-entry cache evicts nothing: the new
entry is prepended to all 250 existing lines and the cache grows to 251
entries. -/
theorem C1_counterexample :
    cacheEx.length = 250 ∧
    isCached pyhash0 cacheEx c0 k0 = some false ∧
    addToCache pyhash0 cacheEx c0 k0 = some (newEntry pyhash0 c0 k0 :: cacheEx) ∧
    (newEntry pyhash0 c0 k0 :: cacheEx).length = 251 := by
  have hic : isCached pyhash0 cacheEx c0 k0 = some false := isCached_replicate_false 250
  refine ⟨by simp [cacheEx], hic, ?_, by simp [cacheEx]⟩
  unfold addToCache
  rw [hic, if_neg (by simp [cacheEx])]

/-- C1, amended: the on-disk result cache never holds more than 251
entries; inserting into a cache of at most 251 entries leaves at most 251;
a record into a cache of exactly 251 entries evicts exactly the oldest
(last) entry and leaves the count at 251, while a record into a cache of
exactly 250 entries evicts nothing and leaves 251 entries. -/
theorem C1_cache_cap_251 (pyhash : List Char → Int) (cache : List (List Char))
    (content : List Char) (cmd : List (List Char)) (s' : List (List Char))
    (h : addToCache pyhash cache content cmd = some s') :
    (cache.length ≤ 251 → s'.length ≤ 251) ∧
    (cache.length = 251 → isCached pyhash cache content cmd = some false →
      s' = newEntry pyhash content cmd :: cache.dropLast ∧ s'.length = 251) ∧
    (cache.length = 250 → isCached pyhash cache content cmd = some false →
      s' = newEntry pyhash content cmd :: cache ∧ s'.length = 251) := by
  rcases addToCache_cases pyhash cache content cmd s' h with ⟨hic, rfl⟩ | ⟨hic, rfl⟩
  · refine ⟨fun hb => hb, fun _ hfalse => ?_, fun _ hfalse => ?_⟩ <;>
      · rw [hic] at hfalse
        exact absurd hfalse (by simp)
  · refine ⟨?_, fun h251 _ => ?_, fun h250 _ => ?_⟩
    · intro hb
      by_cases hlen : 250 < cache.length
      · rw [if_pos hlen]
        simp only [List.length_cons, List.length_dropLast]
        omega
      · rw [if_neg hlen]
        simp only [List.length_cons]
        omega
    · rw [if_pos (by omega)]
      refine ⟨rfl, ?_⟩
      simp only [List.length_cons, List.length_dropLast]
      omega
    · rw [if_neg (by omega)]
      exact ⟨rfl, by simp [h250]⟩

/-- C1, witness for the amended claim at a concrete 251-entry cache. -/
theorem C1_cache_cap_251_witness :
    addToCache pyhash0 cacheEx251 c0 k0 =
      some (newEntry pyhash0 c0 k0 :: cacheEx251.dropLast) ∧
    (newEntry pyhash0 c0 k0 :: cacheEx251.dropLast).length = 251 := by
  have hic : isCached pyhash0 cacheEx251 c0 k0 = some false := isCached_replicate_false 251
  obtain ⟨s', hs'⟩ :=
    addToCache_total pyhash0 cacheEx251 c0 k0 (replicate_lineEx_wf 251)
  obtain ⟨heq, hlen⟩ :=
    (C1_cache_cap_251 pyhash0 cacheEx251 c0 k0 s' hs').2.1 (by simp [cacheEx251]) hic
  exact ⟨by rw [hs', heq], by rw [← heq]; exact hlen⟩

/-- C2: for every content `C` and command `K`, `is_cached (C, K)` is false
on the cache produced by recording only pairs whose fingerprint or command
representation differs from `(C, K)`'s; it is true immediately after
`add_to_cache (C, K)`; and it remains true after recording any further
pairs, as long as the total entry count stays within the 250-entry cap.
(The unrelatedness hypothesis encodes the spec's accepted fingerprint
false-positive trade-off; the `'|' ∉` hypotheses say that no command
representation contains the pipe character, so that the written lines parse
back.) -/
theorem C2_lookup_lifecycle (pyhash : List Char → Int) (C : List Char)
    (K : List (List Char)) (ps qs : List (List Char × List (List Char)))
    (hK : '|' ∉ pyReprCmd K)
    (hps : ∀ p ∈ ps, '|' ∉ pyReprCmd p.2 ∧
      (pyhash p.1 ≠ pyhash C ∨ pyReprCmd p.2 ≠ pyReprCmd K))
    (hqs : ∀ q ∈ qs, '|' ∉ pyReprCmd q.2)
    (hcap : ps.length + 1 + qs.length ≤ 250) :
    ∃ s1 s2 s3,
      recordAll pyhash [] ps = some s1 ∧ isCached pyhash s1 C K = some false ∧
      addToCache pyhash s1 C K = some s2 ∧ isCached pyhash s2 C K = some true ∧
      recordAll pyhash s2 qs = some s3 ∧ isCached pyhash s3 C K = some true := by
  obtain ⟨s1, hra1, hwf1, hlen1, _⟩ :=
    recordAll_props pyhash ps [] (by simp) (fun p hp => (hps p hp).1)
  have hfalse1 : isCached pyhash s1 C K = some false := by
    apply (icl_false_iff _ _ _).mpr
    exact recordAll_nonmatch pyhash (pyhash C) (pyReprCmd K) ps [] s1 (by simp) hps hra1
  obtain ⟨s2, hs2⟩ := addToCache_total pyhash s1 C K hwf1
  simp only [List.length_nil, Nat.zero_add] at hlen1
  have hs2eq : s2 = newEntry pyhash C K :: s1 := by
    rcases addToCache_cases pyhash s1 C K s2 hs2 with ⟨htrue, _⟩ | ⟨_, rfl⟩
    · rw [hfalse1] at htrue
      exact absurd htrue (by simp)
    · rw [if_neg (by omega)]
  have hwf2 : ∀ x ∈ s2, (lineVal x).isSome := addToCache_wf pyhash s1 C K s2 hwf1 hK hs2
  have htrue2 : isCached pyhash s2 C K = some true := by
    apply icl_true_of_mem _ _ _ hwf2
    exact ⟨newEntry pyhash C K, by rw [hs2eq]; exact List.mem_cons_self _ _,
      lineVal_newEntry pyhash C K hK⟩
  obtain ⟨s3, hra3, hwf3, _, hmem3⟩ := recordAll_props pyhash qs s2 hwf2 hqs
  have hcap3 : s2.length + qs.length ≤ 251 := by
    rw [hs2eq]
    simp only [List.length_cons]
    omega
  have htrue3 : isCached pyhash s3 C K = some true := by
    apply icl_true_of_mem _ _ _ hwf3
    refine ⟨newEntry pyhash C K, hmem3 hcap3 _ ?_, lineVal_newEntry pyhash C K hK⟩
    rw [hs2eq]
    exact List.mem_cons_self _ _
  exact ⟨s1, s2, s3, hra1, hfalse1, hs2, htrue2, hra3, htrue3⟩

/-- C2, witness: the lifecycle at a concrete content and command, with one
unrelated pair recorded afterwards. -/
theorem C2_lookup_lifecycle_witness :
    isCached pyhash0 [] c0 k0 = some false ∧
    addToCache pyhash0 [] c0 k0 = some [newEntry pyhash0 c0 k0] ∧
    isCached pyhash0 [newEntry pyhash0 c0 k0] c0 k0 = some true ∧
    recordAll pyhash0 [newEntry pyhash0 c0 k0] [(c1, k1)] =
      some [newEntry pyhash0 c1 k1, newEntry pyhash0 c0 k0] ∧
    isCached pyhash0 [newEntry pyhash0 c1 k1, newEntry pyhash0 c0 k0] c0 k0 =
      some true := by
  obtain ⟨s1, s2, s3, h1, h2, h3, h4, h5, h6⟩ :=
    C2_lookup_lifecycle pyhash0 c0 k0 [] [(c1, k1)] (by decide) (by simp)
      (by decide) (by norm_num)
  have e1 : s1 = [] := (Option.some.inj h1).symm
  subst e1
  have e2 : s2 = [newEntry pyhash0 c0 k0] :=
    (Option.some.inj ((by decide : addToCache pyhash0 [] c0 k0 =
      some [newEntry pyhash0 c0 k0]).symm.trans h3)).symm
  subst e2
  have e3 : s3 = [newEntry pyhash0 c1 k1, newEntry pyhash0 c0 k0] :=
    (Option.some.inj ((by decide : recordAll pyhash0 [newEntry pyhash0 c0 k0] [(c1, k1)] =
      some [newEntry pyhash0 c1 k1, newEntry pyhash0 c0 k0]).symm.trans h5)).symm
  subst e3
  exact ⟨h2, h3, h4, h5, h6⟩

/-- C3: lookup is command sensitive.  Recording `(C, K1)` on a cache on
which `(C, K2)` is not cached (where `K1` and `K2` have different string
representations) leaves `(C, K2)` uncached; and `is_cached` returns true
only when some stored line carries both the fingerprint of the content and
the string representation of the command. -/
theorem C3_command_sensitive (pyhash : List Char → Int) (s : List (List Char))
    (C : List Char) (K1 K2 : List (List Char)) (s' : List (List Char))
    (hrepr : pyReprCmd K1 ≠ pyReprCmd K2) (hK1 : '|' ∉ pyReprCmd K1)
    (hbefore : isCached pyhash s C K2 = some false)
    (hadd : addToCache pyhash s C K1 = some s') :
    isCached pyhash s' C K2 = some false ∧
    (∀ cache content cmd, isCached pyhash cache content cmd = some true →
      ∃ line ∈ cache, lineVal line = some (pyhash content, pyReprCmd cmd)) := by
  constructor
  · rcases addToCache_cases pyhash s C K1 s' hadd with ⟨_, rfl⟩ | ⟨_, rfl⟩
    · exact hbefore
    · apply (icl_false_iff _ _ _).mpr
      intro x hx
      rcases List.mem_cons.mp hx with rfl | hx
      · refine ⟨pyhash C, pyReprCmd K1, lineVal_newEntry pyhash C K1 hK1, ?_⟩
        rintro ⟨_, h2⟩
        exact hrepr h2
      · have hold : x ∈ s := by
          by_cases hlen : 250 < s.length
          · rw [if_pos hlen] at hx
            exact (List.dropLast_sublist _).subset hx
          · rw [if_neg hlen] at hx
            exact hx
        exact (icl_false_iff _ _ _).mp hbefore x hold
  · exact fun cache content cmd htrue => icl_mem_of_true _ _ cache htrue

/-- C3, witness: recording `(c0, k0)` does not make `(c0, k1)` cached. -/
theorem C3_command_sensitive_witness :
    isCached pyhash0 [newEntry pyhash0 c0 k0] c0 k1 = some false :=
  (C3_command_sensitive pyhash0 [] c0 k0 k1 [newEntry pyhash0 c0 k0]
    (by decide) (by decide) (by decide) (by decide)).1

/-- C10, counterexample: the claim says `is_cached` raises on every cache
file containing a malformed line.  It does not: when a line matching the
queried pair precedes the malformed line, the scan returns `True` before
reaching it, so no exception is raised. -/
theorem C10_counterexample :
    lineVal badLine = none ∧ ('|' ∉ badLine) ∧
    isCached pyhash0 [newEntry pyhash0 c0 k0, badLine] c0 k0 = some true := by
  refine ⟨by decide, by decide, by decide⟩

/-- C10, amended: `is_cached` returns a boolean on every cache file whose
lines all have the shape `<integer>|||<command-repr>` (with no pipe in the
command representation); and on a cache file containing a line that fails
to parse, `is_cached` never returns false — it raises an unhandled
exception unless some line matching the queried pair precedes the
malformed line. -/
theorem C10_totality (pyhash : List Char → Int) (cache : List (List Char))
    (content : List Char) (cmd : List (List Char)) :
    ((∀ line ∈ cache, ∃ n r, line = intToStr n ++ sep3 ++ r ∧ '|' ∉ r) →
      (isCached pyhash cache content cmd).isSome) ∧
    ((∃ line ∈ cache, lineVal line = none) →
      isCached pyhash cache content cmd ≠ some false) := by
  constructor
  · intro hwf
    apply icl_isSome_of_wf
    intro x hx
    obtain ⟨n, r, rfl, hr⟩ := hwf x hx
    rw [lineVal_entry n r hr]
    rfl
  · exact fun hbad => icl_ne_false_of_bad _ _ cache hbad

/-- C10, witness: totality on a well-formed one-line cache, and the
never-false behaviour on a cache containing the malformed line. -/
theorem C10_totality_witness :
    (isCached pyhash0 [newEntry pyhash0 c0 k0] c0 k1).isSome = true ∧
    isCached pyhash0 [badLine] c0 k0 ≠ some false := by
  constructor
  · exact (C10_totality pyhash0 [newEntry pyhash0 c0 k0] c0 k1).1
      (fun line hline => by
        rw [List.eq_of_mem_singleton hline]
        exact ⟨0, pyReprCmd k0, rfl, by decide⟩)
  · exact (C10_totality pyhash0 [badLine] c0 k0).2
      ⟨badLine, List.mem_cons_self _ _, by decide⟩

/-! ## Lemmas: header dictionaries and target versions -/

theorem hset_same (h : Headers) (k v : String) : hset h k v k = some v := by
  unfold hset
  rw [if_pos rfl]

theorem hset_other (h : Headers) (k v k' : String) (hne : k' ≠ k) :
    hset h k v k' = h k' := by
  unfold hset
  rw [if_neg hne]

theorem variantOf_ne_empty {v var : String} (hv : variantOf v = some var) :
    v ≠ "" ∧ var = v.dropRight 1 ++ "." ++ v.takeRight 1 := by
  have hne : v ≠ "" := by
    intro h
    rw [variantOf, if_pos h] at hv
    exact Option.noConfusion hv
  rw [variantOf, if_neg hne] at hv
  exact ⟨hne, (Option.some.inj hv).symm⟩

theorem targetsOf_sound :
    ∀ command : List String, ∀ ts : List String, targetsOf command = some ts →
      ∀ e ∈ ts, ∃ i v, command[i]? = some "--target-version" ∧
        command[i + 1]? = some v ∧ v ≠ "" ∧
        e = v.dropRight 1 ++ "." ++ v.takeRight 1 := by
  intro command
  induction command with
  | nil =>
    intro ts hts e he
    rw [show targetsOf [] = some [] from rfl] at hts
    rw [← Option.some.inj hts] at he
    exact absurd he (List.not_mem_nil e)
  | cons item rest ih =>
    intro ts hts e he
    cases rest with
    | nil =>
      rw [targetsOf] at hts
      by_cases hitem : item = "--target-version"
      · rw [if_pos hitem] at hts
        exact Option.noConfusion hts
      · rw [if_neg hitem] at hts
        rw [← Option.some.inj hts] at he
        exact absurd he (List.not_mem_nil e)
    | cons w rest2 =>
      rw [targetsOf] at hts
      by_cases hitem : item = "--target-version"
      · rw [if_pos hitem] at hts
        cases hv : variantOf w with
        | none =>
          rw [hv] at hts
          exact Option.noConfusion hts
        | some var =>
          rw [hv] at hts
          cases hrec : targetsOf (w :: rest2) with
          | none =>
            rw [hrec] at hts
            exact Option.noConfusion hts
          | some ts' =>
            rw [hrec] at hts
            have hts' : (if var ∈ ts' then ts' else var :: ts') = ts :=
              Option.some.inj hts
            obtain ⟨hwne, hvar⟩ := variantOf_ne_empty hv
            by_cases hmem : var ∈ ts'
            · rw [if_pos hmem] at hts'
              subst hts'
              obtain ⟨i, u, hi, hi1, hu, he'⟩ := ih ts' hrec e he
              exact ⟨i + 1, u, by simpa using hi, by simpa using hi1, hu, he'⟩
            · rw [if_neg hmem] at hts'
              subst hts'
              rcases List.mem_cons.mp he with rfl | he
              · exact ⟨0, w, by simp [hitem], by simp, hwne, hvar⟩
              · obtain ⟨i, u, hi, hi1, hu, he'⟩ := ih ts' hrec e he
                exact ⟨i + 1, u, by simpa using hi, by simpa using hi1, hu, he'⟩
      · rw [if_neg hitem] at hts
        obtain ⟨i, u, hi, hi1, hu, he'⟩ := ih ts hts e he
        exact ⟨i + 1, u, by simpa using hi, by simpa using hi1, hu, he'⟩

theorem targetsOf_complete :
    ∀ command : List String, ∀ ts : List String, targetsOf command = some ts →
      ∀ i v, command[i]? = some "--target-version" → command[i + 1]? = some v →
        v ≠ "" ∧ (v.dropRight 1 ++ "." ++ v.takeRight 1) ∈ ts := by
  intro command
  induction command with
  | nil =>
    intro ts _ i v hi _
    simp at hi
  | cons item rest ih =>
    intro ts hts i v hi hi1
    cases rest with
    | nil =>
      rw [targetsOf] at hts
      by_cases hitem : item = "--target-version"
      · rw [if_pos hitem] at hts
        exact Option.noConfusion hts
      · cases i with
        | zero =>
          have : item = "--target-version" := by simpa using hi
          exact absurd this hitem
        | succ i' =>
          rw [List.getElem?_cons_succ] at hi
          simp at hi
    | cons w rest2 =>
      rw [targetsOf] at hts
      by_cases hitem : item = "--target-version"
      · rw [if_pos hitem] at hts
        cases hv : variantOf w with
        | none =>
          rw [hv] at hts
          exact Option.noConfusion hts
        | some var =>
          rw [hv] at hts
          cases hrec : targetsOf (w :: rest2) with
          | none =>
            rw [hrec] at hts
            exact Option.noConfusion hts
          | some ts' =>
            rw [hrec] at hts
            have hts' : (if var ∈ ts' then ts' else var :: ts') = ts :=
              Option.some.inj hts
            obtain ⟨hwne, hvar⟩ := variantOf_ne_empty hv
            cases i with
            | zero =>
              have hvw : w = v := by simpa using hi1
              subst hvw
              refine ⟨hwne, ?_⟩
              rw [← hts', ← hvar]
              by_cases hmem : var ∈ ts'
              · rw [if_pos hmem]
                exact hmem
              · rw [if_neg hmem]
                exact List.mem_cons_self _ _
            | succ i' =>
              obtain ⟨hvne, hmem⟩ :=
                ih ts' hrec i' v (by simpa using hi) (by simpa using hi1)
              refine ⟨hvne, ?_⟩
              rw [← hts']
              by_cases hmemv : var ∈ ts'
              · rw [if_pos hmemv]
                exact hmem
              · rw [if_neg hmemv]
                exact List.mem_cons_of_mem _ hmem
      · rw [if_neg hitem] at hts
        cases i with
        | zero =>
          have : item = "--target-version" := by simpa using hi
          exact absurd this hitem
        | succ i' => exact ih ts hts i' v (by simpa using hi) (by simpa using hi1)

theorem format_headers_variant (table : String → List (String × String))
    (command : List String) (filename : Option String) :
    ∀ hres, format_headers table command filename = some hres →
      (isPyi filename = true → hres "X-Python-Variant" = some "pyi") ∧
      (isPyi filename = false → ∀ ts, targetsOf command = some ts → ts ≠ [] →
        hres "X-Python-Variant" = some (String.intercalate "," ts)) := by
  intro hres hform
  unfold format_headers at hform
  cases hll : lineLengthStep command (command.foldl (applyTable table) fun _ => none) with
  | none =>
    rw [hll] at hform
    exact Option.noConfusion hform
  | some h2 =>
    rw [hll] at hform
    have hform2 : (match variantStep command filename h2 with
        | none => none
        | some h3 => some (if "--diff" ∈ command then hset h3 "X-Diff" "true" else h3)) =
        some hres := hform
    cases hvs : variantStep command filename h2 with
    | none =>
      rw [hvs] at hform2
      exact Option.noConfusion hform2
    | some h3 =>
      rw [hvs] at hform2
      have h3eq : (if "--diff" ∈ command then hset h3 "X-Diff" "true" else h3) = hres :=
        Option.some.inj hform2
      have hdiff : hres "X-Python-Variant" = h3 "X-Python-Variant" := by
        rw [← h3eq]
        by_cases hd : "--diff" ∈ command
        · rw [if_pos hd, hset_other _ _ _ _ (by decide)]
        · rw [if_neg hd]
      constructor
      · intro hpyi
        rw [variantStep, if_pos hpyi] at hvs
        have hh : hset h2 "X-Python-Variant" "pyi" = h3 := Option.some.inj hvs
        rw [hdiff, ← hh, hset_same]
      · intro hpyi ts hts hne
        rw [variantStep, if_neg (by simp [hpyi]), hts] at hvs
        have hh : (if ts = [] then h2
            else hset h2 "X-Python-Variant" (String.intercalate "," ts)) = h3 :=
          Option.some.inj hvs
        rw [if_neg hne] at hh
        rw [hdiff, ← hh, hset_same]

theorem mem_ite_append {x : String} {c : List String} {b : Prop} [Decidable b]
    {xs : List String} (h : x ∈ c) : x ∈ (if b then c ++ xs else c) := by
  by_cases hb : b
  · rw [if_pos hb]
    exact List.mem_append_left _ h
  · rw [if_neg hb]
    exact h

theorem foldl_tv_mem {x : String} :
    ∀ (l : List String) (c : List String), x ∈ c →
      x ∈ l.foldl (fun c v => c ++ ["--target-version", v]) c := by
  intro l
  induction l with
  | nil => exact fun c h => h
  | cons v l ih => exact fun c h => ih _ (List.mem_append_left _ h)

/-! ## Claims about the daemon adapter and command builders -/

/-- C4: `process_response` normalizes every HTTP response exactly as the
spec says: 200 gives returncode 0 with the body as output and the
"1 file reformatted" message, 204 gives returncode 0 with the
"1 file left unchanged" message, 400 and 500 give a nonzero error
returncode, and any other status gives a nonzero returncode with the
"no valid response" message. -/
theorem C4_process_response (r : HttpResponse) :
    (r.status_code = 200 → process_response r = (0, r.content, REFORMATTED_OUT)) ∧
    (r.status_code = 204 → process_response r = (0, r.content, UNCHANGED_OUT)) ∧
    (r.status_code = 400 ∨ r.status_code = 500 →
      (process_response r).1 = -1 ∧ (process_response r).1 ≠ 0) ∧
    (r.status_code ≠ 200 → r.status_code ≠ 204 → r.status_code ≠ 400 →
      r.status_code ≠ 500 →
      (process_response r).1 ≠ 0 ∧ (process_response r).2.2 = NO_VALID_RESPONSE_OUT) := by
  unfold process_response
  refine ⟨fun h => by rw [if_pos h], fun h => ?_, fun h => ?_, fun h200 h204 h400 h500 => ?_⟩
  · rw [if_neg (by omega), if_pos h]
  · rw [if_neg (by omega), if_neg (by omega), if_pos h]
    exact ⟨rfl, by norm_num⟩
  · rw [if_neg h200, if_neg h204, if_neg (by rintro (h | h) <;> [exact h400 h; exact h500 h])]
    exact ⟨by norm_num, rfl⟩

/-- C4, witness: the four branches at concrete responses. -/
theorem C4_process_response_witness :
    process_response ⟨200, ['x']⟩ = (0, ['x'], REFORMATTED_OUT) ∧
    process_response ⟨204, []⟩ = (0, [], UNCHANGED_OUT) ∧
    (process_response ⟨400, []⟩).1 ≠ 0 ∧ (process_response ⟨500, []⟩).1 ≠ 0 ∧
    (process_response ⟨999, []⟩).1 ≠ 0 ∧
    (process_response ⟨999, []⟩).2.2 = NO_VALID_RESPONSE_OUT :=
  ⟨(C4_process_response ⟨200, ['x']⟩).1 rfl,
    (C4_process_response ⟨204, []⟩).2.1 rfl,
    ((C4_process_response ⟨400, []⟩).2.2.1 (Or.inl rfl)).2,
    ((C4_process_response ⟨500, []⟩).2.2.1 (Or.inr rfl)).2,
    ((C4_process_response ⟨999, []⟩).2.2.2 (by norm_num) (by norm_num) (by norm_num)
      (by norm_num)).1,
    ((C4_process_response ⟨999, []⟩).2.2.2 (by norm_num) (by norm_num) (by norm_num)
      (by norm_num)).2⟩

/-- C5: while the daemon readiness check reports not ready,
`Blackd.__call__` performs no network request (the request counter stays 0)
and returns the empty result `(None, None, None)`, whatever the network
would have answered. -/
theorem C5_blackd_not_ready (postResult : Except (List Char) HttpResponse) :
    blackdCall false postResult = (none, 0) := rfl

/-- C8: a `.pyi` filename forces stub mode on both transports: whatever the
header table and however many `--target-version` tokens the command holds,
`format_headers` sets `X-Python-Variant` to `"pyi"`, and
`get_black_command` produces a command containing `--pyi`. -/
theorem C8_pyi_forces_stub (table : String → List (String × String))
    (command : List String) (filename : Option String) (base extra : List String)
    (s : Settings) (hpyi : isPyi filename = true) :
    (∀ hres, format_headers table command filename = some hres →
      hres "X-Python-Variant" = some "pyi") ∧
    (∀ res, get_black_command base extra s filename = some res → "--pyi" ∈ res) := by
  constructor
  · intro hres hform
    exact (format_headers_variant table command filename hres hform).1 hpyi
  · intro res hres
    unfold get_black_command at hres
    by_cases hbase : base = []
    · rw [if_pos hbase] at hres
      exact Option.noConfusion hres
    · rw [if_neg hbase] at hres
      have hres' := Option.some.inj hres
      rw [← hres']
      apply foldl_tv_mem
      apply mem_ite_append
      rw [if_pos hpyi]
      exact List.mem_append_right _ (by simp)

/-- C8, witness: a concrete `.pyi` view. -/
theorem C8_pyi_forces_stub_witness :
    ((format_headers tbl0 ["--target-version", "py38"] (some "a.pyi")).bind
      fun hres => hres "X-Python-Variant") = some "pyi" ∧
    "--pyi" ∈ ["black", "--pyi"] := by
  have hthm := C8_pyi_forces_stub tbl0 ["--target-version", "py38"] (some "a.pyi")
    ["black"] [] ⟨none, false, false, false, []⟩ (by decide)
  constructor
  · obtain ⟨h, hh⟩ : ∃ h, format_headers tbl0 ["--target-version", "py38"]
        (some "a.pyi") = some h := ⟨_, rfl⟩
    rw [hh]
    show h "X-Python-Variant" = some "pyi"
    exact hthm.1 h hh
  · exact hthm.2 ["black", "--pyi"] (by decide)

/-- C9 (implicit behaviour, confirmed): for a non-`.pyi` view, every
element of the `X-Python-Variant` header comes from a `--target-version`
token `v` by inserting a dot before the last character of `v` (so `py38`
becomes `py3.8` while `py310` becomes `py31.0`, not `py3.10`); the header
value is the comma-join of those elements, and every `--target-version`
occurrence contributes its dotted variant. -/
theorem C9_target_version_variant (table : String → List (String × String))
    (command : List String) (filename : Option String) (ts : List String)
    (hpyi : isPyi filename = false) (hts : targetsOf command = some ts)
    (hne : ts ≠ []) :
    (∀ hres, format_headers table command filename = some hres →
      hres "X-Python-Variant" = some (String.intercalate "," ts)) ∧
    (∀ e ∈ ts, ∃ i v, command[i]? = some "--target-version" ∧
      command[i + 1]? = some v ∧ v ≠ "" ∧
      e = v.dropRight 1 ++ "." ++ v.takeRight 1) ∧
    (∀ i v, command[i]? = some "--target-version" → command[i + 1]? = some v →
      v ≠ "" ∧ (v.dropRight 1 ++ "." ++ v.takeRight 1) ∈ ts) := by
  refine ⟨?_, targetsOf_sound command ts hts, targetsOf_complete command ts hts⟩
  intro hres hform
  exact (format_headers_variant table command filename hres hform).2 hpyi ts hts hne

/-- C9, witness: `py310` is rendered as `py31.0`. -/
theorem C9_target_version_variant_witness :
    ((format_headers tbl0 ["--target-version", "py310"] (some "a.py")).bind
      fun hres => hres "X-Python-Variant") = some "py31.0" := by
  have hts : targetsOf ["--target-version", "py310"] = some ["py31.0"] := by decide
  have hthm := C9_target_version_variant tbl0 ["--target-version", "py310"]
    (some "a.py") ["py31.0"] (by decide) hts (by decide)
  obtain ⟨h, hh⟩ : ∃ h, format_headers tbl0 ["--target-version", "py310"]
      (some "a.py") = some h := ⟨_, rfl⟩
  rw [hh]
  show h "X-Python-Variant" = some "py31.0"
  rw [hthm.1 h hh]
  decide

/-! ## Claims about `Black.finalize` -/

/-- C6: on a nonzero returncode, `finalize` sets the normalized diagnostic
text as the view status and changes nothing else: the buffer is not
modified, no cache entry is recorded, and no view is created. -/
theorem C6_finalize_error_atomic (pyhash : List Char → Int) (st : ViewState)
    (extra : List (List Char)) (returncode : Int) (out err content : List Char)
    (cmd : List (List Char)) (h : returncode ≠ 0) :
    finalize pyhash st extra returncode out err content cmd =
      some { st with status := some (normalizeNewlines err) } ∧
    ∀ st', finalize pyhash st extra returncode out err content cmd = some st' →
      st'.buffer = st.buffer ∧ st'.cache = st.cache ∧
      st'.newViews = st.newViews ∧ st'.status = some (normalizeNewlines err) := by
  have heq : finalize pyhash st extra returncode out err content cmd =
      some { st with status := some (normalizeNewlines err) } := by
    unfold finalize
    rw [if_pos h]
  refine ⟨heq, ?_⟩
  intro st' hst'
  rw [heq] at hst'
  rw [← Option.some.inj hst']
  exact ⟨rfl, rfl, rfl, rfl⟩

/-- C6, witness: a concrete failing invocation. -/
theorem C6_finalize_error_atomic_witness :
    finalize pyhash0 ⟨['b'], none, [], []⟩ [] 1 ['o'] ['e'] c0 k0 =
      some (⟨['b'], some (normalizeNewlines ['e']), [], []⟩ : ViewState) :=
  (C6_finalize_error_atomic pyhash0 ⟨['b'], none, [], []⟩ [] 1 ['o'] ['e'] c0 k0
    (by norm_num)).1

/-- C7: in diff mode (zero returncode, diagnostic not saying "unchanged",
`--diff` among the extra arguments) the original buffer is never mutated:
`finalize` only appends a new scratch view holding the formatter's diff
output, leaving buffer, cache and status untouched. -/
theorem C7_diff_mode_no_mutation (pyhash : List Char → Int) (st : ViewState)
    (extra : List (List Char)) (out err content : List Char)
    (cmd : List (List Char))
    (hunch : containsSub unchangedStr (normalizeNewlines err) = false)
    (hdiff : diffTok ∈ extra) :
    finalize pyhash st extra 0 out err content cmd =
      some { st with newViews := st.newViews ++ [out] } ∧
    ∀ st', finalize pyhash st extra 0 out err content cmd = some st' →
      st'.buffer = st.buffer ∧ st'.cache = st.cache ∧ st'.status = st.status ∧
      st'.newViews = st.newViews ++ [out] := by
  have heq : finalize pyhash st extra 0 out err content cmd =
      some { st with newViews := st.newViews ++ [out] } := by
    unfold finalize
    rw [if_neg (by simp), if_neg (by simp [hunch]), if_pos hdiff]
  refine ⟨heq, ?_⟩
  intro st' hst'
  rw [heq] at hst'
  rw [← Option.some.inj hst']
  exact ⟨rfl, rfl, rfl, rfl⟩

/-- C7, witness: a concrete diff-mode invocation. -/
theorem C7_diff_mode_no_mutation_witness :
    finalize pyhash0 ⟨['b'], none, [], []⟩ [diffTok] 0 ['d'] [] c0 k0 =
      some (⟨['b'], none, [], [['d']]⟩ : ViewState) :=
  (C7_diff_mode_no_mutation pyhash0 ⟨['b'], none, [], []⟩ [diffTok] ['d'] [] c0 k0
    (by decide) (List.mem_cons_self _ _)).1

end Sublack
